import Mathlib

/-!
# Verification of the sentence-scraper aggregation pipeline

Shallow embedding of `flask_proxy.py` (class `SentenceScraper` and the Flask
endpoint handlers `get_sentences`, `get_batch_sentences`).  Strings are
modelled as `List Char`; Python regular-expression substitutions are modelled
by explicit left-to-right scanners that mirror `re.sub` semantics for the
concrete patterns appearing in the source.
-/

namespace Sentencer

/-- Python `\s` / `str.strip()` whitespace, restricted to the ASCII range
(the scraped strings are ASCII HTML text). -/
def pyIsSpace (c : Char) : Bool :=
  c = ' ' || c = '\t' || c = '\n' || c = '\r' || c = '\x0b' || c = '\x0c'

/-- Scan after an opening `'('`: length up to and including the first `')'`,
provided no `'\n'` intervenes.  This is the combined match length of the
alternatives `\(\d+\)` and `\(.*?\)` (lazy, `.` does not match newline):
both succeed exactly when the first `')'` after the `'('` is reached without
crossing a newline, and both then consume up to that `')'`. -/
def parenLen : List Char → Option Nat
  | [] => none
  | c :: rest =>
    if c = ')' then some 1
    else if c = '\n' then none
    else (parenLen rest).map (· + 1)

/-- Match length at one scan position for the pattern
`(\(\d+\)|\(.*?\)|\d+\.)|^\d+[\.,]|^\d+` of `process_sentences`
(`flask_proxy.py` line 138).  `atStart` records whether the scan position is
index 0 of the string (`^` matches only there; `re.MULTILINE` is off).
For a digit run the greedy `\d+` can only be followed by the literal once the
whole maximal run is consumed, since backtracking inside the run meets
another digit. -/
def matchAt1 (atStart : Bool) (l : List Char) : Option Nat :=
  match l with
  | [] => none
  | c :: rest =>
    if c = '(' then (parenLen rest).map (· + 1)
    else if c.isDigit then
      let k := (l.takeWhile Char.isDigit).length
      match l.drop k with
      | [] => if atStart then some k else none
      | d :: _ =>
        if d = '.' then some (k + 1)
        else if d = ',' then (if atStart then some (k + 1) else none)
        else if atStart then some k else none
    else none

/-- `re.sub` driver for the pattern above, replacing each match by one `' '`:
scan left to right, on a match emit `' '` and resume after it, otherwise emit
the character and advance one position.  The fuel argument is an upper bound
on the remaining length (each step consumes at least one character), making
the recursion structural. -/
def sub1Go : Nat → Bool → List Char → List Char
  | 0, _, _ => []
  | _ + 1, _, [] => []
  | fuel + 1, atStart, c :: rest =>
    match matchAt1 atStart (c :: rest) with
    | some k => ' ' :: sub1Go fuel false (List.drop (k - 1) rest)
    | none => c :: sub1Go fuel false rest

/-- `regex.sub(' ', sentence)` for
`regex = re.compile(r'(\(\d+\)|\(.*?\)|\d+\.)|^\d+[\.,]|^\d+')`. -/
def pySubClean (s : List Char) : List Char := sub1Go s.length true s

/-- Prepend a space to a list, merging with an already-leading space.
Helper realising the effect of a whitespace run under `re.sub(r'\s+', ' ')`. -/
def consSpace : List Char → List Char
  | [] => [' ']
  | d :: t => if d = ' ' then d :: t else ' ' :: d :: t

/-- `re.sub(r'\s+', ' ', s)`: every maximal whitespace run becomes a single
`' '`. -/
def collapseWs : List Char → List Char
  | [] => []
  | c :: rest => if pyIsSpace c then consSpace (collapseWs rest) else c :: collapseWs rest

/-- `str.strip()` (no arguments): drop leading and trailing whitespace. -/
def pyStrip (l : List Char) : List Char :=
  ((l.dropWhile pyIsSpace).reverse.dropWhile pyIsSpace).reverse

/-- `str.lower()`, ASCII case. -/
def pyLower (l : List Char) : List Char := l.map Char.toLower

/-- The cleaning steps of `process_sentences` (lines 145-148):
`cleaned = regex.sub(' ', sentence).strip()` then
`cleaned = re.sub(r'\s+', ' ', cleaned)`. -/
def cleanSentence (s : List Char) : List Char := collapseWs (pyStrip (pySubClean s))

/-- Per-sentence acceptance of `process_sentences` (lines 142-152): skip
blank input, clean, then skip results shorter than 10 characters or starting
(case-insensitively) with a boilerplate phrase; otherwise accept the cleaned
sentence. -/
def normalize (s : List Char) : Option (List Char) :=
  if pyStrip s = [] then none
  else if (cleanSentence s).length < 10 then none
  else if ("show all".data.isPrefixOf (pyLower (cleanSentence s))
      || "random good".data.isPrefixOf (pyLower (cleanSentence s))) then none
  else some (cleanSentence s)

/-- The display numbering `f"{i}. {cleaned}"` (line 155). -/
def numberItem (i : Nat) (cleaned : List Char) : List Char :=
  (Nat.repr i).data ++ '.' :: ' ' :: cleaned

/-- Loop body of `process_sentences`: `i` is the 1-based `enumerate` index
over the raw input list (it advances on skipped sentences too), `cnt` the
number of results appended so far; the loop breaks once 30 results have been
appended (lines 141-159). -/
def processAux : Nat → Nat → List (List Char) → List (List Char)
  | _, _, [] => []
  | i, cnt, s :: rest =>
    match normalize s with
    | none => processAux (i + 1) cnt rest
    | some cleaned =>
      if cnt + 1 ≥ 30 then [numberItem i cleaned]
      else numberItem i cleaned :: processAux (i + 1) (cnt + 1) rest

/-- `process_sentences` (lines 136-161). -/
def process_sentences (sentences : List (List Char)) : List (List Char) :=
  processAux 1 0 sentences

/-! ## Aggregation (`get_sentences`, lines 171-239) -/

/-- `re.sub(r'^\d+\.\s*', '', s)` used for the deduplication key (line 228):
anchored at position 0, so it fires at most once, removing a leading digit
run, a literal `'.'`, and any following whitespace. -/
def stripNumPre (l : List Char) : List Char :=
  let ds := l.takeWhile Char.isDigit
  if ds = [] then l
  else
    match l.drop ds.length with
    | '.' :: rest => rest.dropWhile pyIsSpace
    | _ => l

/-- The canonical comparison form of a sentence for deduplication:
`re.sub(r'^\d+\.\s*', '', sentence.lower())` (line 228). -/
def canonSentence (s : List Char) : List Char := stripNumPre (pyLower s)

/-- Deduplication loop of `get_sentences` (lines 224-231): walk the combined
list once; keep a sentence when its canonical form has not been seen, record
the canonical form in `seen`.  The Python `set` is modelled as a list with
membership. -/
def dedupGo (seen : List (List Char)) : List (List Char) → List (List Char)
  | [] => []
  | s :: rest =>
    if canonSentence s ∈ seen then dedupGo seen rest
    else s :: dedupGo (canonSentence s :: seen) rest

/-- `unique_sentences` as computed from `combined_sentences`. -/
def dedupSentences (l : List (List Char)) : List (List Char) := dedupGo [] l

/-- The dictionary each scraper returns:
`{'sentences': ..., 'image_url': ..., 'source': ...}`. -/
structure SourceResult where
  sentences : List (List Char)
  image_url : Option (List Char)
  source : List Char
deriving DecidableEq, Repr

/-- The JSON body built by `get_sentences` (lines 233-239). -/
structure AggregateResponse where
  word : List Char
  sentences : List (List Char)
  image_url : Option (List Char)
  sources : List (List Char)
  total_sentences : Nat
deriving DecidableEq, Repr

/-- `list(set(sources_used))` (line 237).  CPython set iteration order is
unspecified; the model fixes first-occurrence order.  No claim depends on
this order. -/
def listSet : List (List Char) → List (List Char)
  | [] => []
  | x :: rest => x :: (listSet rest).filter (· ≠ x)

/-- Image selection (lines 217-221): the first contributing result whose
`image_url` is truthy (non-`None` and non-empty). -/
def firstImage : List SourceResult → Option (List Char)
  | [] => none
  | r :: rest =>
    match r.image_url with
    | some u => if u = [] then firstImage rest else some u
    | none => firstImage rest

/-- The result-collection loop (lines 192-201): each adapter call sits in its
own `try`/`except Exception: continue`; a raised exception (`Except.error`)
or a falsy result (`None`, or a dict with empty `sentences`) contributes
nothing, and the loop always proceeds to the remaining adapters. -/
def collectResults : List (Except (List Char) (Option SourceResult)) → List SourceResult
  | [] => []
  | Except.error _ :: rest => collectResults rest
  | Except.ok none :: rest => collectResults rest
  | Except.ok (some r) :: rest =>
    if r.sentences = [] then collectResults rest else r :: collectResults rest

/-- Lines 203-239 of `get_sentences`, after the word has been validated and
the adapter results collected: the placeholder response when nothing
contributed, otherwise concatenation in adapter order, deduplication, and
truncation of the sentence list to 30. -/
def aggregateResults (word : List Char) (all_results : List SourceResult) :
    AggregateResponse :=
  if all_results = [] then
    ⟨word, ["No sentences found for this word.".data], none, [], 0⟩
  else
    ⟨word,
      (dedupSentences ((all_results.map SourceResult.sentences).flatten)).take 30,
      firstImage all_results,
      listSet (all_results.map SourceResult.source),
      (dedupSentences ((all_results.map SourceResult.sentences).flatten)).length⟩

/-- `re.sub(r'[^a-zA-Z\-]', '', word.lower().strip())` (lines 178 and 259). -/
def sanitizeWord (w : List Char) : List Char :=
  (pyStrip (pyLower w)).filter (fun c => c.isAlpha || c = '-')

/-- Flask responses of the single-word endpoint: a 200 JSON body or a 400
error body. -/
inductive HttpResponse where
  | ok (body : AggregateResponse)
  | badRequest (error : List Char)
deriving DecidableEq, Repr

/-- Endpoint `GET /sentences/<word>` (lines 171-239).  The network-dependent
behaviour of the three adapters is abstracted as the list `outcomes` of what
each `source_func(word)` call does (raise, or return `None` or a dict), in
the fixed order `[scrape_sentencedict, scrape_cambridge,
scrape_yourdictionary]` of line 186.  The handler takes no `limit` query
parameter: none is read anywhere in the source. -/
def get_sentences (rawWord : List Char)
    (outcomes : List (Except (List Char) (Option SourceResult))) : HttpResponse :=
  if rawWord = [] || pyStrip rawWord = [] then
    HttpResponse.badRequest "Word parameter is required".data
  else if sanitizeWord rawWord = [] then
    HttpResponse.badRequest "Invalid word format".data
  else
    HttpResponse.ok (aggregateResults (sanitizeWord rawWord) (collectResults outcomes))

/-! ## The scrapers (lines 35-134) -/

/-- What the fetch collaborator handed to a scraper on success: the text
fragments of the selected nodes in document order (`get_text(strip=True)`
already applied) and the resolved image URL if an `img` matched (resolution
by `urljoin` is the external collaborator's job). -/
structure FetchedPage where
  fragments : List (List Char)
  imgSrc : Option (List Char)

/-- Outcome of `self.session.get` + parsing: any network/HTTP/parse failure
(modelled as one failure case, all caught by `except Exception`), or a page. -/
inductive FetchOutcome where
  | failure
  | success (page : FetchedPage)

/-- Line 54: keep truthy fragments not starting with the site banner. -/
def bannerFilter (fragments : List (List Char)) : List (List Char) :=
  fragments.filter (fun t => t ≠ [] && !("Sentencedict.com".data.isPrefixOf t))

/-- `scrape_sentencedict` (lines 35-74) as the method body reads: on a fetch
failure the `except Exception` at line 72 yields `None`; on success the text
fragments of the `#all`/`#student` selectors are banner-filtered (line 54),
handed to the cleanup routine `process_sentences` named at line 64 (whose
code is lines 136-161), and packaged with the resolved image URL
(lines 57-70).  In the file as shipped no call of this method — or of
anything else in the module — ever executes, because loading the module
fails (`flask_proxy_load` below). -/
def scrape_sentencedict (fetch : FetchOutcome) : Option SourceResult :=
  match fetch with
  | FetchOutcome.failure => none
  | FetchOutcome.success page =>
    some ⟨process_sentences (bannerFilter page.fragments), page.imgSrc,
      "sentencedict.com".data⟩

/-- `scrape_cambridge` (lines 76-104): truthy fragments, first 20, no image. -/
def scrape_cambridge (fetch : FetchOutcome) : Option SourceResult :=
  match fetch with
  | FetchOutcome.failure => none
  | FetchOutcome.success page =>
    some ⟨(page.fragments.filter (· ≠ [])).take 20, none, "cambridge.org".data⟩

/-- `scrape_yourdictionary` (lines 106-134): truthy fragments, first 20, no
image. -/
def scrape_yourdictionary (fetch : FetchOutcome) : Option SourceResult :=
  match fetch with
  | FetchOutcome.failure => none
  | FetchOutcome.success page =>
    some ⟨(page.fragments.filter (· ≠ [])).take 20, none, "yourdictionary.com".data⟩

/-! ## Module loading

CPython compiles the whole of `flask_proxy.py` to bytecode before executing
any statement of it, so a block-structure error anywhere in the file stops
the load before the class body or any route registration runs. -/

/-- Leading-space count of line 136 of `flask_proxy.py`, the header
`def process_sentences(self, sentences):`. -/
def defHeaderIndent : Nat := 8

/-- Leading-space count of line 137, the first line after that header
(the docstring `"""Clean and process sentences"""`). -/
def defFirstBodyIndent : Nat := 8

/-- Python's block rule for compound statements: a suite placed on the lines
after a `def` header must be indented strictly more than the header;
otherwise compiling the file raises `IndentationError` ("expected an
indented block after function definition"). -/
def pySuiteAccepted (header firstBody : Nat) : Bool := header < firstBody

/-- Outcome of the interpreter loading `flask_proxy.py`. -/
inductive ModuleLoad where
  | loaded
  | indentationError (line : Nat)
deriving DecidableEq, Repr

/-- Loading `flask_proxy.py`: compilation checks the suite of the `def` at
line 136 against line 137; both sit at eight spaces, so the file fails to
compile and no statement of the module — the class creation at line 18 and
the route registrations included — is ever executed. -/
def flask_proxy_load : ModuleLoad :=
  if pySuiteAccepted defHeaderIndent defFirstBodyIndent then ModuleLoad.loaded
  else ModuleLoad.indentationError 136

/-! ## Batch endpoint (`get_batch_sentences`, lines 241-280) -/

/-- Python dict assignment `results[word] = v`: replace in place if the key
exists, else append (CPython dicts preserve insertion order). -/
def upsert (k : List Char) (v : SourceResult) :
    List (List Char × SourceResult) → List (List Char × SourceResult)
  | [] => [(k, v)]
  | (k2, v2) :: rest => if k2 = k then (k, v) :: rest else (k2, v2) :: upsert k v rest

/-- Dict lookup. -/
def lookupEntry (k : List Char) : List (List Char × SourceResult) → Option SourceResult
  | [] => none
  | (k2, v2) :: rest => if k2 = k then some v2 else lookupEntry k rest

/-- Placeholder entry when the primary scraper returned `None` (lines
267-271). -/
def noFoundEntry : SourceResult :=
  ⟨["No sentences found.".data], none, "none".data⟩

/-- Placeholder entry when the per-word `try` caught an exception (lines
272-278). -/
def errorEntry : SourceResult :=
  ⟨["Error fetching sentences.".data], none, "error".data⟩

/-- One iteration of the batch loop (lines 258-278): sanitize the word; a
word sanitizing to empty is silently skipped (the `if word:` has no `else`);
otherwise the call to the primary adapter `scraper.scrape_sentencedict` —
abstracted as the oracle `f`, which may raise — yields the entry or a
placeholder.  Only the primary adapter is consulted. -/
def batchStep (f : List Char → Except (List Char) (Option SourceResult))
    (acc : List (List Char × SourceResult)) (w : List Char) :
    List (List Char × SourceResult) :=
  if sanitizeWord w = [] then acc
  else
    match f (sanitizeWord w) with
    | Except.error _ => upsert (sanitizeWord w) errorEntry acc
    | Except.ok none => upsert (sanitizeWord w) noFoundEntry acc
    | Except.ok (some r) => upsert (sanitizeWord w) r acc

/-- The batch loop over all words (lines 256-278). -/
def get_batch_core (f : List Char → Except (List Char) (Option SourceResult))
    (words : List (List Char)) : List (List Char × SourceResult) :=
  words.foldl (batchStep f) []

/-- Flask responses of the batch endpoint. -/
inductive BatchResponse where
  | ok (results : List (List Char × SourceResult))
  | badRequest (error : List Char)
deriving DecidableEq, Repr

/-- Endpoint `POST /batch-sentences` (lines 241-280).  `body = none` models a
missing/invalid JSON body or a body without a `words` key. -/
def get_batch_sentences (f : List Char → Except (List Char) (Option SourceResult))
    (body : Option (List (List Char))) : BatchResponse :=
  match body with
  | none => BatchResponse.badRequest "Words array is required".data
  | some words =>
    if words.length = 0 then BatchResponse.badRequest "Words must be a non-empty array".data
    else if words.length > 10 then BatchResponse.badRequest "Maximum 10 words per batch".data
    else BatchResponse.ok (get_batch_core f words)

/-! ## Property formalisations

Boolean scanners formalising the spec's vocabulary: parenthesized numeric
markers, leading digits, whitespace runs, digit-dot adjacency, and the
first-seen deduplication order. -/

/-- The list starts with a (bare) digit. -/
def startsWithDigit : List Char → Bool
  | [] => false
  | c :: _ => c.isDigit

/-- No two adjacent whitespace characters. -/
def noDoubleWs : List Char → Bool
  | a :: b :: rest => !(pyIsSpace a && pyIsSpace b) && noDoubleWs (b :: rest)
  | _ => true

/-- Every whitespace character is a plain `' '`. -/
def allSpaceWs (l : List Char) : Bool := l.all (fun c => !(pyIsSpace c) || c = ' ')

/-- Some digit is immediately followed by `'.'`. -/
def hasDigitDot : List Char → Bool
  | a :: b :: rest => (a.isDigit && b = '.') || hasDigitDot (b :: rest)
  | _ => false

/-- The list starts with zero or more digits and then `')'`. -/
def closeAfterDigits : List Char → Bool
  | [] => false
  | c :: rest => if c = ')' then true else c.isDigit && closeAfterDigits rest

/-- The list starts with one or more digits and then `')'`. -/
def digitsThenClose : List Char → Bool
  | [] => false
  | c :: rest => c.isDigit && closeAfterDigits rest

/-- The list contains a parenthesized numeric marker `(digits)` (at least
one digit) as a contiguous substring. -/
def hasParenNum : List Char → Bool
  | [] => false
  | c :: rest => (c = '(' && digitsThenClose rest) || hasParenNum rest

/-- The list contains `')'` somewhere. -/
def hasCloseParen : List Char → Bool
  | [] => false
  | c :: rest => c = ')' || hasCloseParen rest

/-- The list contains `'('` with some `')'` somewhere after it. -/
def hasParenClose : List Char → Bool
  | [] => false
  | c :: rest => (c = '(' && hasCloseParen rest) || hasParenClose rest

/-- The head, when present, is not whitespace. -/
def headNonWs (l : List Char) : Bool :=
  match l.head? with
  | some c => !pyIsSpace c
  | none => true

/-- The last element, when present, is not whitespace. -/
def lastNonWs (l : List Char) : Bool :=
  match l.getLast? with
  | some c => !pyIsSpace c
  | none => true

/-- Reference rendering of the numbering loop, stated from the spec side for
comparison with `process_sentences`: number every accepted sentence with its
1-based position `i` in the raw input list (the index advances on rejected
inputs as well). -/
def numberAll : Nat → List (List Char) → List (List Char)
  | _, [] => []
  | i, s :: rest =>
    match normalize s with
    | some cleaned => numberItem i cleaned :: numberAll (i + 1) rest
    | none => numberAll (i + 1) rest

/-! ## Helper lemmas: scanner monotonicity -/

theorem hasParenNum_cons_of {c : Char} {l : List Char} (h : hasParenNum l = true) :
    hasParenNum (c :: l) = true := by
  simp only [hasParenNum, Bool.or_eq_true]
  exact Or.inr h

theorem closeAfterDigits_append {u v : List Char} (h : closeAfterDigits u = true) :
    closeAfterDigits (u ++ v) = true := by
  induction u with
  | nil => simp [closeAfterDigits] at h
  | cons c rest ih =>
    simp only [closeAfterDigits] at h ⊢
    split at h
    · simp [*]
    · simp only [Bool.and_eq_true] at h
      simp [*, ih h.2]

theorem digitsThenClose_append {u v : List Char} (h : digitsThenClose u = true) :
    digitsThenClose (u ++ v) = true := by
  cases u with
  | nil => simp [digitsThenClose] at h
  | cons c rest =>
    simp only [List.cons_append, digitsThenClose, Bool.and_eq_true] at h ⊢
    exact ⟨h.1, closeAfterDigits_append h.2⟩

theorem hasParenNum_append_left {u v : List Char} (h : hasParenNum u = true) :
    hasParenNum (u ++ v) = true := by
  induction u with
  | nil => simp [hasParenNum] at h
  | cons c rest ih =>
    simp only [hasParenNum, Bool.or_eq_true, Bool.and_eq_true] at h ⊢
    rcases h with ⟨hc, hd⟩ | h
    · exact Or.inl ⟨hc, digitsThenClose_append hd⟩
    · exact Or.inr (ih h)

theorem hasParenNum_append_right {u t : List Char} (h : hasParenNum t = true) :
    hasParenNum (u ++ t) = true := by
  induction u with
  | nil => simpa
  | cons c rest ih => exact hasParenNum_cons_of ih

theorem hasDigitDot_cons_of {c : Char} {l : List Char} (h : hasDigitDot l = true) :
    hasDigitDot (c :: l) = true := by
  cases l with
  | nil => simp [hasDigitDot] at h
  | cons b t =>
    simp only [hasDigitDot, Bool.or_eq_true] at h ⊢
    exact Or.inr h

theorem hasDigitDot_append_left {u v : List Char} (h : hasDigitDot u = true) :
    hasDigitDot (u ++ v) = true := by
  induction u with
  | nil => simp [hasDigitDot] at h
  | cons c rest ih =>
    cases rest with
    | nil => simp [hasDigitDot] at h
    | cons b t =>
      simp only [hasDigitDot, Bool.or_eq_true] at h
      rcases h with h | h
      · simp only [List.cons_append, hasDigitDot, Bool.or_eq_true]
        exact Or.inl h
      · exact hasDigitDot_cons_of (ih h)

theorem hasDigitDot_append_right {u t : List Char} (h : hasDigitDot t = true) :
    hasDigitDot (u ++ t) = true := by
  induction u with
  | nil => simpa
  | cons c rest ih => exact hasDigitDot_cons_of ih

theorem hasCloseParen_cons_of {c : Char} {l : List Char} (h : hasCloseParen l = true) :
    hasCloseParen (c :: l) = true := by
  simp only [hasCloseParen, Bool.or_eq_true]
  exact Or.inr h

theorem hasParenClose_cons_of {c : Char} {l : List Char} (h : hasParenClose l = true) :
    hasParenClose (c :: l) = true := by
  simp only [hasParenClose, Bool.or_eq_true]
  exact Or.inr h

/-! ## Helper lemmas: `pyStrip` -/

theorem pyStrip_decomp (m : List Char) : ∃ u v, m = u ++ pyStrip m ++ v := by
  refine ⟨m.takeWhile pyIsSpace,
    (((m.dropWhile pyIsSpace).reverse.takeWhile pyIsSpace)).reverse, ?_⟩
  conv_lhs => rw [← List.takeWhile_append_dropWhile (p := pyIsSpace) (l := m)]
  rw [List.append_assoc]
  congr 1
  conv_lhs => rw [← List.reverse_reverse (m.dropWhile pyIsSpace),
    ← List.takeWhile_append_dropWhile (p := pyIsSpace) (l := (m.dropWhile pyIsSpace).reverse)]
  rw [List.reverse_append]
  rfl

theorem headNonWs_dropWhile (l : List Char) : headNonWs (l.dropWhile pyIsSpace) = true := by
  induction l with
  | nil => rfl
  | cons c rest ih =>
    rw [List.dropWhile_cons]
    split
    · exact ih
    · rename_i hc
      simp [headNonWs, hc]

theorem headNonWs_pyStrip (m : List Char) : headNonWs (pyStrip m) = true := by
  have h1 := headNonWs_dropWhile m
  unfold pyStrip
  set d := m.dropWhile pyIsSpace with hd
  have hdec : d = (d.reverse.dropWhile pyIsSpace).reverse
      ++ (d.reverse.takeWhile pyIsSpace).reverse := by
    conv_lhs => rw [← List.reverse_reverse d,
      ← List.takeWhile_append_dropWhile (p := pyIsSpace) (l := d.reverse)]
    rw [List.reverse_append]
  cases hr : (d.reverse.dropWhile pyIsSpace).reverse with
  | nil => simp [headNonWs, hr]
  | cons c t =>
    rw [hr] at hdec
    rw [hdec] at h1
    simpa [headNonWs, hr] using h1

theorem lastNonWs_pyStrip (m : List Char) : lastNonWs (pyStrip m) = true := by
  unfold pyStrip lastNonWs
  rw [List.getLast?_reverse]
  have := headNonWs_dropWhile (m.dropWhile pyIsSpace).reverse
  unfold headNonWs at this
  exact this

theorem dropWhile_eq_self_of_headNonWs {l : List Char} (h : headNonWs l = true) :
    l.dropWhile pyIsSpace = l := by
  cases l with
  | nil => rfl
  | cons c rest =>
    simp only [headNonWs, List.head?_cons, Bool.not_eq_eq_eq_not, Bool.not_true] at h
    rw [List.dropWhile_cons, if_neg (by simp [h])]

theorem pyStrip_eq_self {l : List Char} (h1 : headNonWs l = true) (h2 : lastNonWs l = true) :
    pyStrip l = l := by
  unfold pyStrip
  rw [dropWhile_eq_self_of_headNonWs h1]
  have : headNonWs l.reverse = true := by
    unfold headNonWs
    rw [List.head?_reverse]
    unfold lastNonWs at h2
    exact h2
  rw [dropWhile_eq_self_of_headNonWs this, List.reverse_reverse]

/-! ## Helper lemmas: `collapseWs` -/

theorem consSpace_sp {t : List Char} : consSpace (' ' :: t) = ' ' :: t := by
  simp [consSpace]

theorem consSpace_of_ne {d : Char} {t : List Char} (h : d ≠ ' ') :
    consSpace (d :: t) = ' ' :: d :: t := by
  simp [consSpace, h]

theorem consSpace_ne_nil (w : List Char) : consSpace w ≠ [] := by
  cases w with
  | nil => simp [consSpace]
  | cons d t =>
    by_cases hd : d = ' ' <;> simp [consSpace, hd]

theorem consSpace_head? (w : List Char) : (consSpace w).head? = some ' ' := by
  cases w with
  | nil => rfl
  | cons d t =>
    by_cases hd : d = ' '
    · subst hd; rw [consSpace_sp]; rfl
    · rw [consSpace_of_ne hd]; rfl

theorem collapseWs_eq_nil_iff {l : List Char} : collapseWs l = [] ↔ l = [] := by
  cases l with
  | nil => simp [collapseWs]
  | cons c rest =>
    simp only [collapseWs]
    constructor
    · intro h
      split at h
      · exact absurd h (consSpace_ne_nil _)
      · simp at h
    · intro h
      simp at h

theorem collapseWs_head?_of_ne_space {r : List Char} {c : Char}
    (h : (collapseWs r).head? = some c) (hc : c ≠ ' ') : r.head? = some c := by
  cases r with
  | nil => simp [collapseWs] at h
  | cons e r2 =>
    simp only [collapseWs] at h
    split at h
    · rw [consSpace_head?] at h
      exact absurd (Option.some_inj.mp h).symm hc
    · simpa using h

theorem allSpaceWs_cons {c : Char} {l : List Char} :
    allSpaceWs (c :: l) = ((!pyIsSpace c || c = ' ') && allSpaceWs l) := by
  simp [allSpaceWs]

theorem collapseWs_wsProps (l : List Char) :
    noDoubleWs (collapseWs l) = true ∧ allSpaceWs (collapseWs l) = true := by
  induction l with
  | nil => exact ⟨rfl, rfl⟩
  | cons c rest ih =>
    obtain ⟨ihn, iha⟩ := ih
    simp only [collapseWs]
    split
    · cases hw : collapseWs rest with
      | nil => exact ⟨by decide, by decide⟩
      | cons d t =>
        rw [hw] at ihn iha
        by_cases hd : d = ' '
        · subst hd
          rw [consSpace_sp]
          exact ⟨ihn, iha⟩
        · rw [consSpace_of_ne hd]
          have hwd : pyIsSpace d = false := by
            rw [allSpaceWs_cons] at iha
            rcases Bool.and_eq_true .. |>.mp iha with ⟨h1, _⟩
            rcases Bool.or_eq_true .. |>.mp h1 with h2 | h2
            · simpa using h2
            · exact absurd (by simpa using h2) hd
          refine ⟨?_, ?_⟩
          · simp only [noDoubleWs, hwd, Bool.and_false, Bool.not_false, Bool.true_and]
            exact ihn
          · rw [allSpaceWs_cons, iha]
            simp
    · cases hw : collapseWs rest with
      | nil => rename_i hns; exact ⟨rfl, by rw [allSpaceWs_cons]; simp [hns, allSpaceWs]⟩
      | cons d t =>
        rename_i hns
        rw [hw] at ihn iha
        refine ⟨?_, ?_⟩
        · simp only [noDoubleWs, ihn, Bool.and_true]
          simp [hns]
        · rw [allSpaceWs_cons, iha]
          simp [hns]

theorem lastNonWs_collapseWs {l : List Char} (h : lastNonWs l = true) :
    lastNonWs (collapseWs l) = true := by
  induction l with
  | nil => rfl
  | cons c rest ih =>
    cases rest with
    | nil =>
      unfold lastNonWs at h
      simp only [List.getLast?_singleton] at h
      have hc : pyIsSpace c = false := by simpa using h
      simp only [collapseWs, hc]
      simp [lastNonWs, h]
    | cons d t =>
      have hrest : lastNonWs (d :: t) = true := by
        unfold lastNonWs at h ⊢
        rwa [List.getLast?_cons_cons] at h
      have ihw := ih hrest
      have hwne : collapseWs (d :: t) ≠ [] := by simp [collapseWs_eq_nil_iff]
      have hstep : collapseWs (c :: d :: t)
          = if pyIsSpace c = true then consSpace (collapseWs (d :: t))
            else c :: collapseWs (d :: t) := rfl
      rw [hstep]
      by_cases hc : pyIsSpace c = true
      · rw [if_pos hc]
        cases hw : collapseWs (d :: t) with
        | nil => exact absurd hw hwne
        | cons e s =>
          rw [hw] at ihw
          by_cases he : e = ' '
          · subst he; rw [consSpace_sp]; exact ihw
          · rw [consSpace_of_ne he]
            unfold lastNonWs at ihw ⊢
            rwa [List.getLast?_cons_cons]
      · rw [if_neg hc]
        cases hw : collapseWs (d :: t) with
        | nil => exact absurd hw hwne
        | cons e s =>
          rw [hw] at ihw
          unfold lastNonWs at ihw ⊢
          rwa [List.getLast?_cons_cons]

theorem collapseWs_eq_self {l : List Char} (h1 : noDoubleWs l = true)
    (h2 : allSpaceWs l = true) : collapseWs l = l := by
  induction l with
  | nil => rfl
  | cons c rest ih =>
    have h2c := (Bool.and_eq_true ..).mp (allSpaceWs_cons ▸ h2)
    have h1r : noDoubleWs rest = true := by
      cases rest with
      | nil => rfl
      | cons d t => exact ((Bool.and_eq_true ..).mp h1).2
    have ihr := ih h1r h2c.2
    simp only [collapseWs, ihr]
    split
    · rename_i hws
      have hc : c = ' ' := by
        rcases (Bool.or_eq_true ..).mp h2c.1 with h3 | h3
        · rw [hws] at h3; simp at h3
        · simpa using h3
      cases rest with
      | nil => simp [consSpace, hc]
      | cons d t =>
        have hnd : pyIsSpace d = false := by
          rcases (Bool.and_eq_true ..).mp h1 with ⟨h4, _⟩
          have h5 : pyIsSpace c = false ∨ pyIsSpace d = false := by simpa using h4
          rcases h5 with h6 | h6
          · rw [hws] at h6; simp at h6
          · exact h6
        have hd : d ≠ ' ' := by
          intro hde
          rw [hde] at hnd
          simp [pyIsSpace] at hnd
        rw [hc]
        simp [consSpace, hd]
    · rfl

theorem closeAfterDigits_consSpace (w : List Char) :
    closeAfterDigits (consSpace w) = false := by
  cases w with
  | nil => decide
  | cons d t =>
    by_cases hd : d = ' '
    · subst hd; rw [consSpace_sp]; simp [closeAfterDigits]
    · rw [consSpace_of_ne hd]; simp [closeAfterDigits]

theorem closeAfterDigits_collapseWs {r : List Char}
    (h : closeAfterDigits (collapseWs r) = true) : closeAfterDigits r = true := by
  induction r with
  | nil => simp [collapseWs, closeAfterDigits] at h
  | cons c rest ih =>
    simp only [collapseWs] at h
    split at h
    · rw [closeAfterDigits_consSpace] at h
      exact absurd h (by simp)
    · simp only [closeAfterDigits] at h ⊢
      split at h
      · simp [*]
      · rename_i hc
        rw [if_neg hc]
        rcases (Bool.and_eq_true ..).mp h with ⟨hd, hrec⟩
        rw [hd, ih hrec]
        rfl

theorem digitsThenClose_collapseWs {r : List Char}
    (h : digitsThenClose (collapseWs r) = true) : digitsThenClose r = true := by
  cases r with
  | nil => simp [collapseWs, digitsThenClose] at h
  | cons c rest =>
    simp only [collapseWs] at h
    split at h
    · exfalso
      cases hw : consSpace (collapseWs rest) with
      | nil => exact consSpace_ne_nil _ hw
      | cons d t =>
        have hd : d = ' ' := by
          have := consSpace_head? (collapseWs rest)
          rw [hw] at this
          simpa using this
        rw [hw, hd] at h
        simp [digitsThenClose] at h
    · simp only [digitsThenClose] at h ⊢
      rcases (Bool.and_eq_true ..).mp h with ⟨hd, hrec⟩
      rw [hd, closeAfterDigits_collapseWs hrec]
      rfl

theorem hasParenNum_consSpace {w : List Char} (h : hasParenNum (consSpace w) = true) :
    hasParenNum w = true := by
  cases w with
  | nil => simp [consSpace, hasParenNum, digitsThenClose] at h
  | cons d t =>
    by_cases hd : d = ' '
    · subst hd; rwa [consSpace_sp] at h
    · rw [consSpace_of_ne hd] at h
      simpa [hasParenNum, digitsThenClose] using h

theorem hasParenNum_collapseWs {m : List Char}
    (h : hasParenNum (collapseWs m) = true) : hasParenNum m = true := by
  induction m with
  | nil => simp [collapseWs, hasParenNum] at h
  | cons c rest ih =>
    simp only [collapseWs] at h
    split at h
    · exact hasParenNum_cons_of (ih (hasParenNum_consSpace h))
    · simp only [hasParenNum, Bool.or_eq_true, Bool.and_eq_true] at h ⊢
      rcases h with ⟨hc, hd⟩ | h
      · exact Or.inl ⟨hc, digitsThenClose_collapseWs hd⟩
      · exact Or.inr (ih h)

theorem hasDigitDot_consSpace {w : List Char} (h : hasDigitDot (consSpace w) = true) :
    hasDigitDot w = true := by
  cases w with
  | nil => simp [consSpace, hasDigitDot] at h
  | cons d t =>
    by_cases hd : d = ' '
    · subst hd; rwa [consSpace_sp] at h
    · rw [consSpace_of_ne hd] at h
      simpa [hasDigitDot] using h

theorem hasDigitDot_collapseWs {m : List Char}
    (h : hasDigitDot (collapseWs m) = true) : hasDigitDot m = true := by
  induction m with
  | nil => simp [collapseWs, hasDigitDot] at h
  | cons c rest ih =>
    simp only [collapseWs] at h
    split at h
    · exact hasDigitDot_cons_of (ih (hasDigitDot_consSpace h))
    · cases hw : collapseWs rest with
      | nil => rw [hw] at h; simp [hasDigitDot] at h
      | cons d t =>
        rw [hw] at h
        simp only [hasDigitDot, Bool.or_eq_true, Bool.and_eq_true,
          decide_eq_true_eq] at h
        rcases h with ⟨hc, hd⟩ | h
        · subst hd
          have hdot : rest.head? = some '.' := by
            apply collapseWs_head?_of_ne_space (c := '.')
            · rw [hw]; rfl
            · decide
          cases rest with
          | nil => simp at hdot
          | cons e s =>
            simp only [List.head?_cons, Option.some_inj] at hdot
            subst hdot
            simp [hasDigitDot, hc]
        · rw [← hw] at h
          exact hasDigitDot_cons_of (ih h)

/-! ## Helper lemmas: the substitution scanner `sub1Go` -/

theorem parenLen_none_of_no_close {r : List Char} (h : hasCloseParen r = false) :
    parenLen r = none := by
  induction r with
  | nil => rfl
  | cons c rest ih =>
    simp only [hasCloseParen, Bool.or_eq_false_iff, decide_eq_false_iff_not] at h
    obtain ⟨hc, hrest⟩ := h
    unfold parenLen
    rw [if_neg hc]
    by_cases hn : c = '\n'
    · rw [if_pos hn]
    · rw [if_neg hn, ih hrest]
      rfl

theorem matchAt1_paren {b : Bool} {rest : List Char} :
    matchAt1 b ('(' :: rest) = (parenLen rest).map (· + 1) := by
  simp only [matchAt1]
  simp

theorem matchAt1_other {b : Bool} {c : Char} {rest : List Char} (h1 : c ≠ '(')
    (h2 : c.isDigit = false) : matchAt1 b (c :: rest) = none := by
  simp only [matchAt1]
  rw [if_neg h1, if_neg (by simp [h2])]

theorem matchAt1_digit_dot {b : Bool} {c : Char} {s : List Char} (hcd : c.isDigit = true) :
    matchAt1 b (c :: '.' :: s) = some 2 := by
  have hcp : c ≠ '(' := by rintro rfl; simp at hcd
  simp only [matchAt1]
  rw [if_neg hcp, if_pos hcd]
  have ht : (c :: '.' :: s).takeWhile Char.isDigit = [c] := by
    rw [List.takeWhile_cons, if_pos hcd, List.takeWhile_cons,
      if_neg (by decide : ¬(Char.isDigit '.' = true))]
  simp only [ht, List.length_cons, List.length_nil, List.drop_succ_cons, List.drop_zero]
  simp

theorem matchAt1_false_digit_none {c : Char} {rest : List Char} (hcd : c.isDigit = true)
    (hnd : ((c :: rest).drop (((c :: rest).takeWhile Char.isDigit).length)).head?
      ≠ some '.') :
    matchAt1 false (c :: rest) = none := by
  have hcp : c ≠ '(' := by rintro rfl; simp at hcd
  simp only [matchAt1]
  rw [if_neg hcp, if_pos hcd]
  cases hdrop : (c :: rest).drop (((c :: rest).takeWhile Char.isDigit).length) with
  | nil => simp [hdrop]
  | cons d t =>
    have hd : d ≠ '.' := by
      intro h
      subst h
      exact hnd (by rw [hdrop]; rfl)
    simp [hdrop, hd]

theorem dropRun_head_ne_dot {c : Char} {rest : List Char} (hcd : c.isDigit = true)
    (hdd : hasDigitDot (c :: rest) = false) :
    ((c :: rest).drop (((c :: rest).takeWhile Char.isDigit).length)).head?
      ≠ some '.' := by
  induction rest generalizing c with
  | nil =>
    intro h
    rw [List.takeWhile_cons, if_pos hcd] at h
    simp at h
  | cons d t ih =>
    by_cases hd : d.isDigit
    · have hdd2 : hasDigitDot (d :: t) = false := by
        simp only [hasDigitDot, Bool.or_eq_false_iff] at hdd
        exact hdd.2
      have hrec := ih hd hdd2
      rw [List.takeWhile_cons, if_pos hcd]
      simpa [List.drop_succ_cons] using hrec
    · have hne : d ≠ '.' := by
        intro h
        subst h
        simp only [hasDigitDot, Bool.or_eq_false_iff] at hdd
        have h1 := hdd.1
        rw [hcd] at h1
        exact absurd h1 (by decide)
      rw [List.takeWhile_cons, if_pos hcd, List.takeWhile_cons, if_neg (by simp [hd])]
      simp only [List.length_cons, List.length_nil, List.drop_succ_cons, List.drop_zero,
        List.head?_cons]
      intro hcont
      exact hne (by simpa using hcont)

theorem sub1Go_head?_of_ne_space {fuel : Nat} {b : Bool} {r : List Char} {c : Char}
    (h : (sub1Go fuel b r).head? = some c) (hc : c ≠ ' ') : r.head? = some c := by
  cases fuel with
  | zero => simp [sub1Go] at h
  | succ fuel =>
    cases r with
    | nil => simp [sub1Go] at h
    | cons d rest =>
      cases hm : matchAt1 b (d :: rest) with
      | some k =>
        rw [show sub1Go (fuel + 1) b (d :: rest)
          = ' ' :: sub1Go fuel false (List.drop (k - 1) rest) by
            simp only [sub1Go, hm]] at h
        exact absurd (Option.some_inj.mp h).symm hc
      | none =>
        rw [show sub1Go (fuel + 1) b (d :: rest) = d :: sub1Go fuel false rest by
          simp only [sub1Go, hm]] at h
        simpa using h

theorem hasDigitDot_sub1Go (fuel : Nat) (b : Bool) (l : List Char) :
    hasDigitDot (sub1Go fuel b l) = false := by
  induction fuel generalizing b l with
  | zero => rfl
  | succ fuel ih =>
    cases l with
    | nil => rfl
    | cons c rest =>
      cases hm : matchAt1 b (c :: rest) with
      | some k =>
        rw [show sub1Go (fuel + 1) b (c :: rest)
          = ' ' :: sub1Go fuel false (List.drop (k - 1) rest) by
            simp only [sub1Go, hm]]
        have h1 := ih false (List.drop (k - 1) rest)
        cases hrec : sub1Go fuel false (List.drop (k - 1) rest) with
        | nil => rfl
        | cons d t =>
          rw [hrec] at h1
          have hsp : (' ').isDigit = false := by decide
          simp [hasDigitDot, h1, hsp]
      | none =>
        rw [show sub1Go (fuel + 1) b (c :: rest) = c :: sub1Go fuel false rest by
          simp only [sub1Go, hm]]
        have h1 := ih false rest
        cases hrec : sub1Go fuel false rest with
        | nil => rfl
        | cons d t =>
          rw [hrec] at h1
          by_cases hd : d = '.'
          · subst hd
            by_cases hcd : c.isDigit
            · exfalso
              have hhead : rest.head? = some '.' :=
                sub1Go_head?_of_ne_space (by rw [hrec]; rfl) (by decide)
              cases rest with
              | nil => simp at hhead
              | cons e s =>
                have he : e = '.' := by simpa using hhead
                subst he
                rw [matchAt1_digit_dot hcd] at hm
                exact Option.noConfusion hm
            · simp only [Bool.not_eq_true] at hcd
              simp [hasDigitDot, h1, hcd]
          · simp [hasDigitDot, h1, hd]

theorem closeAfterDigits_sub1Go {fuel : Nat} {r : List Char} (h : parenLen r = none) :
    closeAfterDigits (sub1Go fuel false r) = false := by
  induction fuel generalizing r with
  | zero => rfl
  | succ fuel ih =>
    cases r with
    | nil => rfl
    | cons c rest =>
      cases hm : matchAt1 false (c :: rest) with
      | some k =>
        rw [show sub1Go (fuel + 1) false (c :: rest)
          = ' ' :: sub1Go fuel false (List.drop (k - 1) rest) by
            simp only [sub1Go, hm]]
        simp [closeAfterDigits]
      | none =>
        rw [show sub1Go (fuel + 1) false (c :: rest) = c :: sub1Go fuel false rest by
          simp only [sub1Go, hm]]
        by_cases hc : c = ')'
        · exfalso
          rw [hc] at h
          simp [parenLen] at h
        · simp only [closeAfterDigits, if_neg hc]
          by_cases hcd : c.isDigit
          · have hcn : c ≠ '\n' := by
              rintro rfl
              simp at hcd
            have hrest : parenLen rest = none := by
              unfold parenLen at h
              rw [if_neg hc, if_neg hcn] at h
              exact Option.map_eq_none'.mp h
            simp [hcd, ih hrest]
          · simp only [Bool.not_eq_true] at hcd
            simp [hcd]

theorem digitsThenClose_of_closeAfter {l : List Char} (h : closeAfterDigits l = false) :
    digitsThenClose l = false := by
  cases l with
  | nil => rfl
  | cons d t =>
    simp only [closeAfterDigits] at h
    split at h
    · simp at h
    · simp only [digitsThenClose]
      exact h

theorem hasParenNum_sub1Go (fuel : Nat) (b : Bool) (l : List Char) :
    hasParenNum (sub1Go fuel b l) = false := by
  induction fuel generalizing b l with
  | zero => rfl
  | succ fuel ih =>
    cases l with
    | nil => rfl
    | cons c rest =>
      cases hm : matchAt1 b (c :: rest) with
      | some k =>
        rw [show sub1Go (fuel + 1) b (c :: rest)
          = ' ' :: sub1Go fuel false (List.drop (k - 1) rest) by
            simp only [sub1Go, hm]]
        simp [hasParenNum, ih]
      | none =>
        rw [show sub1Go (fuel + 1) b (c :: rest) = c :: sub1Go fuel false rest by
          simp only [sub1Go, hm]]
        simp only [hasParenNum, Bool.or_eq_false_iff]
        refine ⟨?_, ih false rest⟩
        by_cases hc : c = '('
        · subst hc
          rw [matchAt1_paren] at hm
          have hpl : parenLen rest = none := Option.map_eq_none'.mp hm
          have hcad := @closeAfterDigits_sub1Go fuel rest hpl
          simp [digitsThenClose_of_closeAfter hcad]
        · simp [hc]

theorem sub1Go_eq_self {fuel : Nat} {l : List Char} (hlen : l.length ≤ fuel)
    (hpc : hasParenClose l = false) (hdd : hasDigitDot l = false) :
    sub1Go fuel false l = l := by
  induction fuel generalizing l with
  | zero =>
    cases l with
    | nil => rfl
    | cons c rest => simp at hlen
  | succ fuel ih =>
    cases l with
    | nil => rfl
    | cons c rest =>
      have hlen2 : rest.length ≤ fuel := by
        simp only [List.length_cons] at hlen
        omega
      have hpc2 : hasParenClose rest = false := by
        simp only [hasParenClose, Bool.or_eq_false_iff] at hpc
        exact hpc.2
      have hdd2 : hasDigitDot rest = false := by
        cases rest with
        | nil => rfl
        | cons d t =>
          simp only [hasDigitDot, Bool.or_eq_false_iff] at hdd
          exact hdd.2
      have hm : matchAt1 false (c :: rest) = none := by
        by_cases hc : c = '('
        · subst hc
          have hnc : hasCloseParen rest = false := by
            simp only [hasParenClose, Bool.or_eq_false_iff] at hpc
            have := hpc.1
            simpa using this
          rw [matchAt1_paren, parenLen_none_of_no_close hnc]
          rfl
        · by_cases hcd : c.isDigit
          · exact matchAt1_false_digit_none hcd (dropRun_head_ne_dot hcd hdd)
          · exact matchAt1_other hc (by simpa using hcd)
      rw [show sub1Go (fuel + 1) false (c :: rest) = c :: sub1Go fuel false rest by
        simp only [sub1Go, hm]]
      rw [ih hlen2 hpc2 hdd2]

theorem sub1Go_true_eq_self {fuel : Nat} {l : List Char} (hlen : l.length ≤ fuel)
    (hsd : startsWithDigit l = false) (hpc : hasParenClose l = false)
    (hdd : hasDigitDot l = false) : sub1Go fuel true l = l := by
  cases fuel with
  | zero =>
    cases l with
    | nil => rfl
    | cons c rest => simp at hlen
  | succ fuel =>
    cases l with
    | nil => rfl
    | cons c rest =>
      have hlen2 : rest.length ≤ fuel := by
        simp only [List.length_cons] at hlen
        omega
      have hpc2 : hasParenClose rest = false := by
        simp only [hasParenClose, Bool.or_eq_false_iff] at hpc
        exact hpc.2
      have hdd2 : hasDigitDot rest = false := by
        cases rest with
        | nil => rfl
        | cons d t =>
          simp only [hasDigitDot, Bool.or_eq_false_iff] at hdd
          exact hdd.2
      have hcd : c.isDigit = false := by simpa [startsWithDigit] using hsd
      have hm : matchAt1 true (c :: rest) = none := by
        by_cases hc : c = '('
        · subst hc
          have hnc : hasCloseParen rest = false := by
            simp only [hasParenClose, Bool.or_eq_false_iff] at hpc
            have := hpc.1
            simpa using this
          rw [matchAt1_paren, parenLen_none_of_no_close hnc]
          rfl
        · exact matchAt1_other hc hcd
      rw [show sub1Go (fuel + 1) true (c :: rest) = c :: sub1Go fuel false rest by
        simp only [sub1Go, hm]]
      rw [sub1Go_eq_self hlen2 hpc2 hdd2]

/-! ## Helper lemmas: properties of accepted Normalizer outputs -/

theorem headNonWs_collapseWs {m : List Char} (h : headNonWs m = true) :
    headNonWs (collapseWs m) = true := by
  cases m with
  | nil => rfl
  | cons c rest =>
    have hc : pyIsSpace c = false := by simpa [headNonWs] using h
    rw [show collapseWs (c :: rest) = c :: collapseWs rest by simp [collapseWs, hc]]
    simpa [headNonWs] using h

theorem normalize_some_elim {s out : List Char} (h : normalize s = some out) :
    out = cleanSentence s ∧ ¬(cleanSentence s).length < 10 := by
  unfold normalize at h
  split at h
  · simp at h
  · split at h
    · simp at h
    · split at h
      · simp at h
      · rename_i h10 _
        exact ⟨(Option.some_inj.mp h).symm, h10⟩

theorem normalize_out_props {s out : List Char} (h : normalize s = some out) :
    10 ≤ out.length ∧ hasParenNum out = false ∧ noDoubleWs out = true
      ∧ allSpaceWs out = true ∧ hasDigitDot out = false
      ∧ headNonWs out = true ∧ lastNonWs out = true := by
  obtain ⟨hout, h10⟩ := normalize_some_elim h
  subst hout
  refine ⟨by omega, ?_, (collapseWs_wsProps _).1, (collapseWs_wsProps _).2, ?_, ?_, ?_⟩
  · cases hcase : hasParenNum (cleanSentence s) with
    | false => rfl
    | true =>
      exfalso
      unfold cleanSentence pySubClean at hcase
      have h1 := hasParenNum_collapseWs hcase
      obtain ⟨u, v, hdec⟩ := pyStrip_decomp (sub1Go s.length true s)
      have h2 : hasParenNum (sub1Go s.length true s) = true := by
        rw [hdec, List.append_assoc]
        exact hasParenNum_append_right (hasParenNum_append_left h1)
      rw [hasParenNum_sub1Go] at h2
      exact Bool.noConfusion h2
  · cases hcase : hasDigitDot (cleanSentence s) with
    | false => rfl
    | true =>
      exfalso
      unfold cleanSentence pySubClean at hcase
      have h1 := hasDigitDot_collapseWs hcase
      obtain ⟨u, v, hdec⟩ := pyStrip_decomp (sub1Go s.length true s)
      have h2 : hasDigitDot (sub1Go s.length true s) = true := by
        rw [hdec, List.append_assoc]
        exact hasDigitDot_append_right (hasDigitDot_append_left h1)
      rw [hasDigitDot_sub1Go] at h2
      exact Bool.noConfusion h2
  · exact headNonWs_collapseWs (headNonWs_pyStrip _)
  · exact lastNonWs_collapseWs (lastNonWs_pyStrip _)

/-! ## Helper lemmas: the numbering loop -/

theorem processAux_cons_none {i cnt : Nat} {s : List Char} {rest : List (List Char)}
    (hn : normalize s = none) :
    processAux i cnt (s :: rest) = processAux (i + 1) cnt rest := by
  simp only [processAux, hn]

theorem processAux_cons_some {i cnt : Nat} {s cleaned : List Char}
    {rest : List (List Char)} (hn : normalize s = some cleaned) :
    processAux i cnt (s :: rest)
      = (if cnt + 1 ≥ 30 then [numberItem i cleaned]
        else numberItem i cleaned :: processAux (i + 1) (cnt + 1) rest) := by
  simp only [processAux, hn]

theorem numberAll_cons_none {i : Nat} {s : List Char} {rest : List (List Char)}
    (hn : normalize s = none) : numberAll i (s :: rest) = numberAll (i + 1) rest := by
  simp only [numberAll, hn]

theorem numberAll_cons_some {i : Nat} {s cleaned : List Char} {rest : List (List Char)}
    (hn : normalize s = some cleaned) :
    numberAll i (s :: rest) = numberItem i cleaned :: numberAll (i + 1) rest := by
  simp only [numberAll, hn]

theorem processAux_eq_take {l : List (List Char)} : ∀ {i cnt : Nat}, cnt < 30 →
    processAux i cnt l = (numberAll i l).take (30 - cnt) := by
  induction l with
  | nil => intro i cnt h; simp [processAux, numberAll]
  | cons s rest ih =>
    intro i cnt h
    cases hn : normalize s with
    | none => rw [processAux_cons_none hn, numberAll_cons_none hn]; exact ih h
    | some cleaned =>
      rw [processAux_cons_some hn, numberAll_cons_some hn]
      by_cases hcnt : cnt + 1 ≥ 30
      · rw [if_pos hcnt]
        have h1 : 30 - cnt = 1 := by omega
        rw [h1]
        rfl
      · rw [if_neg hcnt]
        have h2 : cnt + 1 < 30 := by omega
        rw [ih h2]
        have h3 : 30 - cnt = (30 - (cnt + 1)) + 1 := by omega
        rw [h3]
        rfl

/-! ## Helper lemmas: deduplication -/

theorem dedupGo_sublist (seen : List (List Char)) (l : List (List Char)) :
    List.Sublist (dedupGo seen l) l := by
  induction l generalizing seen with
  | nil => simp [dedupGo]
  | cons s rest ih =>
    simp only [dedupGo]
    split
    · exact List.Sublist.cons s (ih seen)
    · exact List.Sublist.cons₂ s (ih _)

theorem dedupGo_not_mem_seen {seen : List (List Char)} {l : List (List Char)}
    {x : List Char} (h : x ∈ dedupGo seen l) : canonSentence x ∉ seen := by
  induction l generalizing seen with
  | nil => simp [dedupGo] at h
  | cons s rest ih =>
    simp only [dedupGo] at h
    split at h
    · exact ih h
    · rename_i hnotin
      rcases List.mem_cons.mp h with rfl | h2
      · exact hnotin
      · intro hx
        exact ih h2 (List.mem_cons_of_mem _ hx)

theorem dedupGo_pairwise (seen : List (List Char)) (l : List (List Char)) :
    List.Pairwise (fun a b => canonSentence a ≠ canonSentence b) (dedupGo seen l) := by
  induction l generalizing seen with
  | nil => simp [dedupGo]
  | cons s rest ih =>
    simp only [dedupGo]
    split
    · exact ih seen
    · refine List.Pairwise.cons ?_ (ih _)
      intro y hy hcon
      exact dedupGo_not_mem_seen hy (by rw [← hcon]; exact List.mem_cons_self _ _)

theorem dedupGo_complete {seen : List (List Char)} {l : List (List Char)}
    {x : List Char} (h : x ∈ l) :
    canonSentence x ∈ seen
      ∨ ∃ y ∈ dedupGo seen l, canonSentence y = canonSentence x := by
  induction l generalizing seen with
  | nil => simp at h
  | cons s rest ih =>
    rcases List.mem_cons.mp h with rfl | h2
    · simp only [dedupGo]
      split
      · rename_i hin
        exact Or.inl hin
      · exact Or.inr ⟨x, List.mem_cons_self _ _, rfl⟩
    · simp only [dedupGo]
      split
      · rename_i hin
        rcases @ih seen h2 with h3 | ⟨y, hy, hc⟩
        · exact Or.inl h3
        · exact Or.inr ⟨y, hy, hc⟩
      · rcases @ih (canonSentence s :: seen) h2 with h3 | ⟨y, hy, hc⟩
        · rcases List.mem_cons.mp h3 with h4 | h4
          · exact Or.inr ⟨s, List.mem_cons_self _ _, h4.symm⟩
          · exact Or.inl h4
        · exact Or.inr ⟨y, List.mem_cons_of_mem _ hy, hc⟩

theorem dedupGo_first_seen {seen : List (List Char)} {l : List (List Char)}
    {x : List Char} (h : x ∈ dedupGo seen l) :
    ∃ u v, l = u ++ x :: v
      ∧ ∀ y ∈ u, canonSentence y ∉ seen → canonSentence y ≠ canonSentence x := by
  induction l generalizing seen with
  | nil => simp [dedupGo] at h
  | cons s rest ih =>
    simp only [dedupGo] at h
    split at h
    · rename_i hin
      obtain ⟨u, v, hl, hu⟩ := ih h
      refine ⟨s :: u, v, by rw [hl]; rfl, ?_⟩
      intro y hy hns
      rcases List.mem_cons.mp hy with rfl | hy2
      · exact absurd hin hns
      · exact hu y hy2 hns
    · rename_i hnotin
      rcases List.mem_cons.mp h with rfl | h2
      · exact ⟨[], rest, rfl, by simp⟩
      · obtain ⟨u, v, hl, hu⟩ := ih h2
        refine ⟨s :: u, v, by rw [hl]; rfl, ?_⟩
        intro y hy hns
        rcases List.mem_cons.mp hy with rfl | hy2
        · intro hcon
          exact dedupGo_not_mem_seen h2 (by rw [← hcon]; exact List.mem_cons_self _ _)
        · intro hcon
          by_cases hcs : canonSentence y = canonSentence s
          · apply dedupGo_not_mem_seen h2
            rw [← hcon, hcs]
            exact List.mem_cons_self _ _
          · exact hu y hy2 (fun hm => (List.mem_cons.mp hm).elim hcs hns) hcon

/-! ## Helper lemmas: result collection -/

theorem collectResults_nil_of_empty {outcomes : List (Except (List Char) (Option SourceResult))}
    (h : ∀ o ∈ outcomes, match o with
      | Except.ok (some r) => r.sentences = []
      | _ => True) : collectResults outcomes = [] := by
  induction outcomes with
  | nil => rfl
  | cons o rest ih =>
    have hrest := ih (fun o2 ho2 => h o2 (List.mem_cons_of_mem _ ho2))
    have ho := h o (List.mem_cons_self _ _)
    cases o with
    | error e => simpa [collectResults] using hrest
    | ok r =>
      cases r with
      | none => simpa [collectResults] using hrest
      | some r2 =>
        have hs : r2.sentences = [] := ho
        simp [collectResults, hs, hrest]

/-! ## Helper lemmas: aggregation response and batch dictionary -/

theorem aggregateResults_nonempty {word : List Char} {rs : List SourceResult}
    (h : rs ≠ []) :
    aggregateResults word rs
      = ⟨word,
          (dedupSentences ((rs.map SourceResult.sentences).flatten)).take 30,
          firstImage rs,
          listSet (rs.map SourceResult.source),
          (dedupSentences ((rs.map SourceResult.sentences).flatten)).length⟩ := by
  unfold aggregateResults
  rw [if_neg h]

theorem lookupEntry_upsert_ne {k k2 : List Char} {v : SourceResult}
    {acc : List (List Char × SourceResult)} (h : k ≠ k2) :
    lookupEntry k (upsert k2 v acc) = lookupEntry k acc := by
  induction acc with
  | nil =>
    simp only [upsert, lookupEntry]
    rw [if_neg (fun hh => h hh.symm)]
  | cons p rest ih =>
    obtain ⟨k3, v3⟩ := p
    simp only [upsert]
    by_cases h3 : k3 = k2
    · subst h3
      rw [if_pos rfl]
      simp only [lookupEntry]
      rw [if_neg (fun hh => h hh.symm), if_neg (fun hh => h hh.symm)]
    · rw [if_neg h3]
      simp only [lookupEntry]
      by_cases h4 : k3 = k
      · rw [if_pos h4, if_pos h4]
      · rw [if_neg h4, if_neg h4]
        exact ih

theorem foldl_batchStep_all_invalid {f : List Char → Except (List Char) (Option SourceResult)}
    {ws : List (List Char)} (h : ∀ w ∈ ws, sanitizeWord w = []) :
    ∀ acc, ws.foldl (batchStep f) acc = acc := by
  induction ws with
  | nil => intro acc; rfl
  | cons w rest ih =>
    intro acc
    have hw : sanitizeWord w = [] := h w (List.mem_cons_self _ _)
    have hstep : batchStep f acc w = acc := by
      unfold batchStep
      rw [if_pos hw]
    rw [List.foldl_cons, hstep]
    exact ih (fun w2 hw2 => h w2 (List.mem_cons_of_mem _ hw2)) acc

/-- Thirty-one pairwise distinct sentences, used to exercise the truncation
of the deduplicated list. -/
def manySentences : List (List Char) :=
  (List.range 31).map (fun i => 'x' :: (Nat.repr i).data)

/-- A single source result carrying the 31 distinct sentences. -/
def bigResult : SourceResult := ⟨manySentences, none, "sentencedict.com".data⟩

/-! ## Claim theorems -/

/-- C1 (counterexample): the claim's premise fails on the source text.  For
`process_sentences` to be a nested function inside `scrape_yourdictionary`'s
body, the `def` header at line 136 (eight spaces) would need a suite
indented beyond it, but its first following line 137 also sits at eight
spaces, so Python rejects the block and loading the module stops with
`IndentationError` before any statement runs: the class body never executes,
the lookup at line 64 never happens, and `scrape_sentencedict` never runs
and never returns `None` (or anything else). -/
theorem nested_def_premise_cx :
    pySuiteAccepted defHeaderIndent defFirstBodyIndent = false
      ∧ flask_proxy_load ≠ ModuleLoad.loaded := by
  refine ⟨rfl, ?_⟩
  decide

/-- C1 (amended): line 136's `def` has its body at the same eight-space
indentation as the header, so compiling `flask_proxy.py` raises
`IndentationError` at line 136 and the module never loads.  The primary
source indeed never contributes sentences, but not through an
`AttributeError` converted to `None`: nothing in the module — the scrape
call included — is ever executed, because the service never starts. -/
theorem flask_proxy_never_loads :
    flask_proxy_load = ModuleLoad.indentationError 136 := by
  rfl

/-- C4 (counterexample): the Normalizer accepts the input
`" 7 cats and dogs play"` and its output starts with a bare digit — the
`^`-anchored alternatives fire only at index 0 of the raw string, and
`strip()` runs after the substitution, so a digit preceded by whitespace
survives as a leading bare digit of the accepted sentence. -/
theorem normalizer_leading_digit_cx :
    normalize " 7 cats and dogs play".data = some "7 cats and dogs play".data
      ∧ startsWithDigit "7 cats and dogs play".data = true := by
  constructor
  · decide
  · decide

/-- C4 (amended): for every input string, the Normalizer either rejects it or
produces an output of length at least 10 that contains no parenthesized
numeric marker and no run of two or more whitespace characters.  The claim's
third conjunct — no leading bare-digit enumeration — is false
(see the counterexample): the `^`-anchored removals act only at position 0
of the raw string, so a digit preceded by stripped whitespace or by a removed
group survives at the front of the output. -/
theorem normalizer_output_clean {s out : List Char} (h : normalize s = some out) :
    10 ≤ out.length ∧ hasParenNum out = false ∧ noDoubleWs out = true := by
  obtain ⟨h1, h2, h3, -, -, -, -⟩ := normalize_out_props h
  exact ⟨h1, h2, h3⟩

/-- C4 witness: the amended theorem applied to a concrete accepted input. -/
theorem normalizer_output_clean_witness :
    normalize "He is very happy today.".data = some "He is very happy today.".data
      ∧ (10 ≤ "He is very happy today.".data.length
        ∧ hasParenNum "He is very happy today.".data = false
        ∧ noDoubleWs "He is very happy today.".data = true) :=
  ⟨by decide,
    @normalizer_output_clean "He is very happy today.".data
      "He is very happy today.".data (by decide)⟩

/-- C5 (counterexample): the numbering prefix uses the 1-based `enumerate`
index over the raw input list, not the position among accepted sentences:
with a blank first input (rejected) and one accepted input, the accepted
sentence is numbered `2. `, where the claim demands `1. `. -/
theorem numbering_counts_rejected_cx :
    process_sentences [[], "This sentence is long enough.".data]
        = ["2. This sentence is long enough.".data]
      ∧ process_sentences [[], "This sentence is long enough.".data]
        ≠ ["1. This sentence is long enough.".data] := by
  constructor
  · decide
  · decide

/-- C5 (amended): the numbering prefix `n. ` uses the 1-based position of the
sentence in the source's raw input list — the counter advances on rejected
inputs too (`numberAll` numbers accepted sentences by raw input position) —
and a single source contributes at most 30 accepted sentences. -/
theorem numbering_input_position (ss : List (List Char)) :
    process_sentences ss = (numberAll 1 ss).take 30
      ∧ (process_sentences ss).length ≤ 30 := by
  have h := @processAux_eq_take ss 1 0 (by omega)
  unfold process_sentences
  rw [h]
  exact ⟨rfl, List.length_take_le _ _⟩

/-- C8 (counterexample): normalization is not idempotent.  The input
`"(a\nb) plus lots more text"` is accepted unchanged except that the newline
inside the parentheses becomes a space (the lazy paren pattern cannot match
across the newline), so the accepted sentence contains `"(a b)"`; cleaning
that accepted sentence again removes the now-matchable parenthesized group,
yielding a different sentence. -/
theorem normalizer_not_idempotent_cx :
    normalize "(a\nb) plus lots more text".data
        = some "(a b) plus lots more text".data
      ∧ cleanSentence "(a b) plus lots more text".data = "plus lots more text".data
      ∧ cleanSentence "(a b) plus lots more text".data
        ≠ "(a b) plus lots more text".data := by
  refine ⟨?_, ?_, ?_⟩
  · decide
  · decide
  · decide

/-- C8 (amended): re-cleaning an accepted sentence (numbering prefix removed)
is the identity provided the accepted sentence does not start with a digit
and contains no `'('` later followed by `')'`.  Both provisos are necessary:
a surviving leading digit is re-removed by the `^`-anchored rules, and a
surviving paren pair (possible when the original group contained a newline
that whitespace collapsing turned into a space) is re-removed by the lazy
paren rule. -/
theorem normalize_clean_idempotent {s out : List Char} (h : normalize s = some out)
    (h1 : startsWithDigit out = false) (h2 : hasParenClose out = false) :
    cleanSentence out = out := by
  obtain ⟨-, -, hnd, hasw, hdd, hhead, hlast⟩ := normalize_out_props h
  unfold cleanSentence pySubClean
  rw [sub1Go_true_eq_self (Nat.le_refl _) h1 h2 hdd,
    pyStrip_eq_self hhead hlast, collapseWs_eq_self hnd hasw]

/-- C8 witness: the amended theorem applied to a concrete accepted input. -/
theorem normalize_clean_idempotent_witness :
    normalize "She naps quietly over there.".data
        = some "She naps quietly over there.".data
      ∧ startsWithDigit "She naps quietly over there.".data = false
      ∧ hasParenClose "She naps quietly over there.".data = false
      ∧ cleanSentence "She naps quietly over there.".data
        = "She naps quietly over there.".data :=
  ⟨by decide, by decide, by decide,
    @normalize_clean_idempotent "She naps quietly over there.".data
      "She naps quietly over there.".data (by decide) (by decide) (by decide)⟩

/-- C2 (counterexample): `get_sentences` reads no `limit` query parameter and
never clamps or defaults one; it truncates the deduplicated list to 30.  With
one source contributing 31 distinct sentences the response carries 30
sentences, not `min(default 20, 31) = 20` as the claim's invariant demands. -/
theorem no_limit_param_cx :
    get_sentences "cat".data [Except.ok (some bigResult)]
        = HttpResponse.ok (aggregateResults "cat".data [bigResult])
      ∧ (aggregateResults "cat".data [bigResult]).total_sentences = 31
      ∧ (aggregateResults "cat".data [bigResult]).sentences.length = 30
      ∧ (aggregateResults "cat".data [bigResult]).sentences.length
        ≠ min 20 (aggregateResults "cat".data [bigResult]).total_sentences := by
  refine ⟨?_, ?_, ?_, ?_⟩
  · decide
  · decide
  · decide
  · decide

/-- C2 (amended): the endpoint accepts no `limit` parameter at all (its
handler takes only the word; no query string is consulted).  Whenever at
least one source contributed, the length of the returned sentences list is
`min 30 count_after_dedup`, the fixed truncation of line 235. -/
theorem truncate_30_invariant (word : List Char) (rs : List SourceResult)
    (h : rs ≠ []) :
    (aggregateResults word rs).sentences.length
      = min 30 (aggregateResults word rs).total_sentences := by
  rw [aggregateResults_nonempty h]
  exact List.length_take ..

/-- C2 witness: the amended theorem applied to a concrete non-empty result
list. -/
theorem truncate_30_invariant_witness :
    ([bigResult] ≠ ([] : List SourceResult))
      ∧ (aggregateResults "cat".data [bigResult]).sentences.length
        = min 30 (aggregateResults "cat".data [bigResult]).total_sentences :=
  ⟨by decide, truncate_30_invariant "cat".data [bigResult] (by decide)⟩

/-- C3: when the three adapters contribute (in the fixed priority order
sentencedict, cambridge, yourdictionary of the `sources` list), the
result-collection loop preserves that order, and the aggregation
deduplicates the plain concatenation `l1 ++ l2 ++ l3`: the deduplicated list
is a sublist of the concatenation (so sources are never interleaved), no two
of its entries share a canonical form (lowercase, leading `digits.`-prefix
stripped), every concatenation element's canonical form is represented, and
each kept entry is the first occurrence of its canonical form. -/
theorem aggregate_dedup_priority (w : List Char) (l1 l2 l3 : List (List Char))
    (i1 i2 i3 : Option (List Char)) (h1 : l1 ≠ []) (h2 : l2 ≠ []) (h3 : l3 ≠ []) :
    collectResults [Except.ok (some ⟨l1, i1, "sentencedict.com".data⟩),
        Except.ok (some ⟨l2, i2, "cambridge.org".data⟩),
        Except.ok (some ⟨l3, i3, "yourdictionary.com".data⟩)]
      = [⟨l1, i1, "sentencedict.com".data⟩, ⟨l2, i2, "cambridge.org".data⟩,
          ⟨l3, i3, "yourdictionary.com".data⟩]
    ∧ (aggregateResults w [⟨l1, i1, "sentencedict.com".data⟩,
          ⟨l2, i2, "cambridge.org".data⟩,
          ⟨l3, i3, "yourdictionary.com".data⟩]).sentences
        = (dedupSentences (l1 ++ l2 ++ l3)).take 30
    ∧ (aggregateResults w [⟨l1, i1, "sentencedict.com".data⟩,
          ⟨l2, i2, "cambridge.org".data⟩,
          ⟨l3, i3, "yourdictionary.com".data⟩]).total_sentences
        = (dedupSentences (l1 ++ l2 ++ l3)).length
    ∧ List.Sublist (dedupSentences (l1 ++ l2 ++ l3)) (l1 ++ l2 ++ l3)
    ∧ List.Pairwise (fun a b => canonSentence a ≠ canonSentence b)
        (dedupSentences (l1 ++ l2 ++ l3))
    ∧ (∀ x ∈ l1 ++ l2 ++ l3,
        ∃ y ∈ dedupSentences (l1 ++ l2 ++ l3), canonSentence y = canonSentence x)
    ∧ (∀ x ∈ dedupSentences (l1 ++ l2 ++ l3), ∃ u v, l1 ++ l2 ++ l3 = u ++ x :: v
        ∧ ∀ y ∈ u, canonSentence y ≠ canonSentence x) := by
  have hflat : (([⟨l1, i1, "sentencedict.com".data⟩, ⟨l2, i2, "cambridge.org".data⟩,
      ⟨l3, i3, "yourdictionary.com".data⟩] : List SourceResult).map
        SourceResult.sentences).flatten = l1 ++ l2 ++ l3 := by
    simp [List.append_assoc]
  refine ⟨?_, ?_, ?_, ?_, ?_, ?_, ?_⟩
  · simp [collectResults, h1, h2, h3]
  · rw [aggregateResults_nonempty (by simp), hflat]
  · rw [aggregateResults_nonempty (by simp), hflat]
  · exact dedupGo_sublist [] _
  · exact dedupGo_pairwise [] _
  · intro x hx
    rcases @dedupGo_complete [] _ _ hx with h4 | h4
    · simp at h4
    · exact h4
  · intro x hx
    obtain ⟨u, v, hl, hu⟩ := dedupGo_first_seen hx
    exact ⟨u, v, hl, fun y hy => hu y hy (by simp)⟩

/-- Concrete source sentence lists for the C3 witness (the spec's scenario:
a duplicate across the first two sources). -/
def c3l1 : List (List Char) := ["He is happy.".data, "She is happy too.".data]

/-- Second source for the C3 witness. -/
def c3l2 : List (List Char) := ["He is happy.".data]

/-- Third source for the C3 witness. -/
def c3l3 : List (List Char) := ["Numbers differ slightly.".data]

/-- C3 witness: the theorem applied to concrete non-empty source lists,
keeping the ordering/length facts of its conclusion. -/
theorem aggregate_dedup_priority_witness :
    (aggregateResults "happy".data [⟨c3l1, none, "sentencedict.com".data⟩,
        ⟨c3l2, none, "cambridge.org".data⟩,
        ⟨c3l3, none, "yourdictionary.com".data⟩]).sentences
      = (dedupSentences (c3l1 ++ c3l2 ++ c3l3)).take 30 :=
  (aggregate_dedup_priority "happy".data c3l1 c3l2 c3l3 none none none
    (by decide) (by decide) (by decide)).2.1

/-- C6: when the word validates and every adapter outcome is an exception,
`None`, or a result with an empty sentence list, the request still succeeds:
the handler returns HTTP 200 with exactly the placeholder sentence
`"No sentences found for this word."`, `total_sentences = 0`, no image and an
empty sources list. -/
theorem total_failure_placeholder (rawWord : List Char)
    (outcomes : List (Except (List Char) (Option SourceResult)))
    (hw : pyStrip rawWord ≠ []) (hs : sanitizeWord rawWord ≠ [])
    (h : ∀ o ∈ outcomes, match o with
      | Except.ok (some r) => r.sentences = []
      | _ => True) :
    get_sentences rawWord outcomes
      = HttpResponse.ok ⟨sanitizeWord rawWord,
          ["No sentences found for this word.".data], none, [], 0⟩ := by
  have hcol := collectResults_nil_of_empty h
  have hne : rawWord ≠ [] := fun he => hw (by rw [he]; rfl)
  unfold get_sentences
  rw [hcol, if_neg (by simp [hne, hw]), if_neg hs]
  rfl

/-- C6 witness: the theorem applied to a concrete word and concrete failing
outcomes (an exception, an absent result, and an empty-list result). -/
theorem total_failure_placeholder_witness :
    get_sentences "cat".data
        [Except.error "boom".data, Except.ok none,
          Except.ok (some ⟨[], none, "yourdictionary.com".data⟩)]
      = HttpResponse.ok ⟨sanitizeWord "cat".data,
          ["No sentences found for this word.".data], none, [], 0⟩ :=
  total_failure_placeholder "cat".data
    [Except.error "boom".data, Except.ok none,
      Except.ok (some ⟨[], none, "yourdictionary.com".data⟩)]
    (by decide) (by decide)
    (by
      intro o ho
      simp only [List.mem_cons, List.not_mem_nil, or_false] at ho
      rcases ho with rfl | rfl | rfl
      · trivial
      · trivial
      · rfl)

/-- C7: adapter calls are isolated.  Each scraper converts a fetch failure to
`None` locally; in the collection loop an exception (`Except.error`), a
`None`, or an empty result contributes nothing, and whatever adapter `i`
does, the remaining adapters' outcomes are processed identically — the
result of the loop on `x :: rest` is `x`'s own contribution followed by the
loop on `rest`. -/
theorem adapter_isolation (x : Except (List Char) (Option SourceResult))
    (rest : List (Except (List Char) (Option SourceResult))) (e : List Char) :
    scrape_sentencedict FetchOutcome.failure = none
      ∧ scrape_cambridge FetchOutcome.failure = none
      ∧ scrape_yourdictionary FetchOutcome.failure = none
      ∧ collectResults (Except.error e :: rest) = collectResults rest
      ∧ collectResults (Except.ok none :: rest) = collectResults rest
      ∧ collectResults (x :: rest)
        = (match x with
          | Except.ok (some r) => if r.sentences = [] then [] else [r]
          | _ => []) ++ collectResults rest := by
  refine ⟨rfl, rfl, rfl, rfl, rfl, ?_⟩
  cases x with
  | error e2 => rfl
  | ok r =>
    cases r with
    | none => rfl
    | some r2 =>
      by_cases hr : r2.sentences = []
      · simp [collectResults, hr]
      · simp [collectResults, hr]

/-- C9: in batch mode each word is processed independently through the
primary adapter only (the oracle `f` stands for
`scraper.scrape_sentencedict`): the fold over the word list always continues
with the remaining words whatever the current word produced; a word whose
call raises gets the error placeholder entry, a word whose call returns
`None` gets the no-results placeholder entry, in each case touching only
that word's key; every other key's entry is unchanged by the step. -/
theorem batch_isolation (f : List Char → Except (List Char) (Option SourceResult))
    (w k e : List Char) (ws : List (List Char))
    (acc : List (List Char × SourceResult)) :
    get_batch_core f (w :: ws) = ws.foldl (batchStep f) (batchStep f [] w)
      ∧ (sanitizeWord w ≠ [] → f (sanitizeWord w) = Except.error e →
          batchStep f acc w = upsert (sanitizeWord w) errorEntry acc)
      ∧ (sanitizeWord w ≠ [] → f (sanitizeWord w) = Except.ok none →
          batchStep f acc w = upsert (sanitizeWord w) noFoundEntry acc)
      ∧ (k ≠ sanitizeWord w → lookupEntry k (batchStep f acc w) = lookupEntry k acc) := by
  refine ⟨rfl, ?_, ?_, ?_⟩
  · intro hs hf
    unfold batchStep
    rw [if_neg hs, hf]
  · intro hs hf
    unfold batchStep
    rw [if_neg hs, hf]
  · intro hk
    unfold batchStep
    by_cases hs : sanitizeWord w = []
    · rw [if_pos hs]
    · rw [if_neg hs]
      cases f (sanitizeWord w) with
      | error e2 => exact lookupEntry_upsert_ne hk
      | ok r =>
        cases r with
        | none => exact lookupEntry_upsert_ne hk
        | some r2 => exact lookupEntry_upsert_ne hk

/-- C9 witness: the error-placeholder part of the theorem applied to a
concrete word whose adapter call raises. -/
theorem batch_isolation_witness :
    batchStep (fun _ => Except.error "boom".data) [] "cat".data
      = upsert (sanitizeWord "cat".data) errorEntry [] :=
  (batch_isolation (fun _ => Except.error "boom".data) "cat".data "dog".data
    "boom".data ["dog".data] []).2.1 (by decide) rfl

/-- C10: a batch body whose words list is non-empty and of length at most 10
but in which every word sanitizes to the empty string is not an input error:
the request passes validation, every word is silently skipped by the
`if word:` guard, and the endpoint returns the 200 response with an empty
results mapping. -/
theorem batch_all_invalid_ok (f : List Char → Except (List Char) (Option SourceResult))
    (ws : List (List Char)) (h1 : ws ≠ []) (h2 : ws.length ≤ 10)
    (h3 : ∀ w ∈ ws, sanitizeWord w = []) :
    get_batch_sentences f (some ws) = BatchResponse.ok [] := by
  have hlen : ws.length ≠ 0 := by
    cases ws with
    | nil => exact absurd rfl h1
    | cons a t => simp
  simp only [get_batch_sentences]
  rw [if_neg hlen, if_neg (by omega)]
  unfold get_batch_core
  rw [foldl_batchStep_all_invalid h3]

/-- C10 witness: the theorem applied to a concrete two-word batch in which
both words sanitize to the empty string. -/
theorem batch_all_invalid_ok_witness :
    get_batch_sentences (fun _ => Except.ok none) (some ["1234".data, "?!".data])
      = BatchResponse.ok [] :=
  batch_all_invalid_ok (fun _ => Except.ok none) ["1234".data, "?!".data]
    (by decide) (by decide) (by decide)

end Sentencer
